import Mathlib

/-!
# Verification of the parallel window operator (`physical_window.cpp`)

A shallow embedding of the scheduling core of the physical window operator:
the per-hash-group stage machine (`GetStage`), the task scheduler
(`WindowGlobalSourceState` construction, `TryNextTask`, `FinishTask`,
`UpdateBlockedTasks`), the `Finalize` outcome logic, the batch-index
bookkeeping and the `SupportsBatchIndex` / `SourceOrder` predicates.
Machine integers (`idx_t`) are modelled as `Nat`, with explicit `% 2^64`
where wrap-around matters (the `FinishTask` decrement).
-/

namespace PhysicalWindow

/-- `enum WindowGroupStage : uint8_t { SINK, FINALIZE, GETDATA, DONE }`. -/
inductive WindowGroupStage : Type where
  | SINK
  | FINALIZE
  | GETDATA
  | DONE
deriving DecidableEq, Repr

/-- Numeric value of the stage tag, used to express stage ordering. -/
def stageIdx : WindowGroupStage → ℕ
  | .SINK => 0
  | .FINALIZE => 1
  | .GETDATA => 2
  | .DONE => 3

/-- The phase counters of a `WindowHashGroup`: the fixed sizes `count`
(rows) and `blocks` (row blocks), and the atomic progress counters
`sunk` (rows delivered to Sink) and `finalized` (blocks finalized). -/
structure GroupCounters : Type where
  count : ℕ
  blocks : ℕ
  sunk : ℕ
  finalized : ℕ
deriving DecidableEq, Repr

instance : Inhabited GroupCounters := ⟨⟨0, 0, 0, 0⟩⟩

/-- `WindowHashGroup::GetStage`: start from `SINK`, overwrite with
`FINALIZE` when `sunk == count`, then overwrite with `GETDATA` when
`finalized == blocks` (two sequential `if`s over a mutable `result`). -/
def GetStage (g : GroupCounters) : WindowGroupStage :=
  let result := WindowGroupStage.SINK
  let result := if g.sunk = g.count then WindowGroupStage.FINALIZE else result
  let result := if g.finalized = g.blocks then WindowGroupStage.GETDATA else result
  result

/-- One observable change of a group's phase counters, as the worker code
performs them.  `sink`: `Sink()` adds a scanned chunk's size to `sunk`
(never past `count`, per invariant 1 of the spec).  `finalize`:
`Finalize()` adds a task's block range to `finalized`; such a task is
only dispensed while the group's stage is `FINALIZE`
(`TryNextTask` gates on `task->stage == group->GetStage()`). -/
inductive GroupStep (count blocks : ℕ) : ℕ × ℕ → ℕ × ℕ → Prop where
  | sink (sunk finalized d : ℕ) (hd : 0 < d) (hle : sunk + d ≤ count) :
      GroupStep count blocks (sunk, finalized) (sunk + d, finalized)
  | finalize (sunk finalized d : ℕ) (hd : 0 < d) (hle : finalized + d ≤ blocks)
      (hstage : GetStage ⟨count, blocks, sunk, finalized⟩ = WindowGroupStage.FINALIZE) :
      GroupStep count blocks (sunk, finalized) (sunk, finalized + d)

/-- Zero or more `GroupStep`s. -/
def GroupReachFrom (count blocks : ℕ) : ℕ × ℕ → ℕ × ℕ → Prop :=
  Relation.ReflTransGen (GroupStep count blocks)

/-- The counter states a group can be in, starting from the freshly
constructed `sunk = 0, finalized = 0`. -/
def GroupReachable (count blocks : ℕ) (s : ℕ × ℕ) : Prop :=
  GroupReachFrom count blocks (0, 0) s

/-! ## Task scheduler state -/

/-- `WindowGlobalSourceState::Task`: a `(stage, group, block-range)` work
item.  `begin_idx`/`end_idx` delimit the range inside `[0, max_idx)`. -/
structure Task : Type where
  stage : WindowGroupStage
  group_idx : ℕ
  max_idx : ℕ
  begin_idx : ℕ
  end_idx : ℕ
deriving DecidableEq, Repr

instance : Inhabited Task := ⟨⟨WindowGroupStage.SINK, 0, 0, 0, 0⟩⟩

/-- The slice of `WindowGlobalSourceState` that `TryNextTask` reads:
the task list, the cursor `next_task`, the `stopped` flag, and (via
`gsink.global_partition->window_hash_groups`) each group's counters. -/
structure SourceState : Type where
  tasks : List Task
  next_task : ℕ
  stopped : Bool
  groups : List GroupCounters

/-- Result of `TryNextTask`: the task delivered through the out-parameter
(`none` models the null `TaskPtr`), the `bool` return value (`true` =
proceed / not blocked, `false` = blocked), and the updated cursor. -/
structure TryResult : Type where
  task : Option Task
  proceed : Bool
  next_task : ℕ
deriving DecidableEq, Repr

/-- `WindowGlobalSourceState::TryNextTask` (under the scheduler lock):
if the cursor is past the end or `stopped` is set, deliver a null task
and return `true`; otherwise look at the task under the cursor and
compare its stage with its group's `GetStage()`; on a match deliver the
task and advance the cursor, else deliver null and return `false`. -/
def TryNextTask (s : SourceState) : TryResult :=
  if s.tasks.length ≤ s.next_task ∨ s.stopped then
    ⟨none, true, s.next_task⟩
  else
    let t := s.tasks.getD s.next_task default
    let group_stage := GetStage (s.groups.getD t.group_idx default)
    if t.stage = group_stage then
      ⟨some t, true, s.next_task + 1⟩
    else
      ⟨none, false, s.next_task⟩

/-- The behaviour claimed for `TryNextTask`, written from the claim text:
when `stopped` is set or every task has been dispensed, yield a null
task and report not-blocked; otherwise yield the cursor task and advance
if and only if its stage equals its group's current stage, else leave
the cursor, yield no task, and report blocked. -/
def TryNextTaskClaim (s : SourceState) : TryResult :=
  if s.stopped ∨ s.tasks.length ≤ s.next_task then
    ⟨none, true, s.next_task⟩
  else
    let t := s.tasks.getD s.next_task default
    if t.stage = GetStage (s.groups.getD t.group_idx default) then
      ⟨some t, true, s.next_task + 1⟩
    else
      ⟨none, false, s.next_task⟩

/-! ## FinishTask -/

/-- Wrap-around decrement of a 64-bit `idx_t` counter (`--tasks_remaining`). -/
def decIdx (n : ℕ) : ℕ :=
  (n + (2 ^ 64 - 1)) % 2 ^ 64

/-- `WindowGlobalSourceState::FinishTask` on a non-null task: decrement the
group's `tasks_remaining`; the group's `unique_ptr` is reset (all memory
released) iff the decremented counter is zero
(`if (!--finished_hash_group->tasks_remaining) finished_hash_group.reset();`).
Returns the new counter and whether the group was released.  No stage is
consulted. -/
def FinishTask (tasks_remaining : ℕ) : ℕ × Bool :=
  let tr := decIdx tasks_remaining
  (tr, tr = 0)

/-! ## Finalize -/

/-- `enum class SinkFinalizeType { READY, NO_OUTPUT_POSSIBLE }`. -/
inductive SinkFinalizeType : Type where
  | READY
  | NO_OUTPUT_POSSIBLE
deriving DecidableEq, Repr

/-- The parts of the global sink state that `PhysicalWindow::Finalize`
inspects: `global_partition->count`, `global_partition->rows` (`none` =
null pointer, `some r` = collection of `r` rows) and
`global_partition->HasMergeTasks()`. -/
structure FinalizeInputs : Type where
  count : ℕ
  rows : Option ℕ
  hasMergeTasks : Bool
deriving Repr

/-- `PhysicalWindow::Finalize`: returns the sink result and the number of
`PartitionMergeEvent`s inserted into the pipeline event queue. -/
def PhysicalWindowFinalize (s : FinalizeInputs) : SinkFinalizeType × ℕ :=
  if s.count = 0 then
    (SinkFinalizeType.NO_OUTPUT_POSSIBLE, 0)
  else
    match s.rows with
    | some rcount =>
      ((if rcount ≠ 0 then SinkFinalizeType.READY else SinkFinalizeType.NO_OUTPUT_POSSIBLE), 0)
    | none =>
      if ¬s.hasMergeTasks then
        (SinkFinalizeType.NO_OUTPUT_POSSIBLE, 0)
      else
        (SinkFinalizeType.READY, 1)

/-- The `Finalize` outcome as described by the claim text: no rows sunk →
`NO_OUTPUT_POSSIBLE`; existing unpartitioned row collection → `READY` iff
non-empty with no event scheduled; no merge tasks → `NO_OUTPUT_POSSIBLE`;
otherwise exactly one `PartitionMergeEvent` and `READY`. -/
def FinalizeClaim (s : FinalizeInputs) : SinkFinalizeType × ℕ :=
  if s.count = 0 then
    (SinkFinalizeType.NO_OUTPUT_POSSIBLE, 0)
  else
    match s.rows with
    | some rcount =>
      ((if 0 < rcount then SinkFinalizeType.READY else SinkFinalizeType.NO_OUTPUT_POSSIBLE), 0)
    | none =>
      if s.hasMergeTasks then
        (SinkFinalizeType.READY, 1)
      else
        (SinkFinalizeType.NO_OUTPUT_POSSIBLE, 0)

/-! ## Blocked-task queue and the GetData exception paths -/

/-- The blocked-task machinery of `WindowGlobalSourceState`: the `stopped`
flag, the `blocked_tasks` queue of interrupt states (identified here by
`ℕ` tokens), and a log `flushed` of the interrupt states whose
`Callback()` has been fired. -/
structure BlockedState : Type where
  stopped : Bool
  blocked_tasks : List ℕ
  flushed : List ℕ
deriving DecidableEq, Repr

/-- `WindowGlobalSourceState::UpdateBlockedTasks` (under the state mutex):
if `blocked`, push the interrupt state; otherwise fire the callback of
every queued waiter and clear the queue.  Returns `blocked`. -/
def UpdateBlockedTasks (blocked : Bool) (interrupt_state : ℕ) (s : BlockedState) :
    Bool × BlockedState :=
  if blocked then
    (true, { s with blocked_tasks := s.blocked_tasks ++ [interrupt_state] })
  else
    (false, { s with flushed := s.flushed ++ s.blocked_tasks, blocked_tasks := [] })

/-- The exception handler of the compiled (`#if 1`, "Debugging variant")
`PhysicalWindow::GetData`: `catch (...) { gsource.stopped = true; throw; }`.
The queue is not touched. -/
def getDataCatchActive (s : BlockedState) : BlockedState :=
  { s with stopped := true }

/-- The exception handler of the disabled (`#else`) queue-based variant of
`PhysicalWindow::GetData`: set `stopped`, then
`gsource.UpdateBlockedTasks(false, input.interrupt_state)` before
re-raising. -/
def getDataCatchQueue (interrupt_state : ℕ) (s : BlockedState) : BlockedState :=
  (UpdateBlockedTasks false interrupt_state { s with stopped := true }).2

/-! ## WindowHashGroup constructor: the external flag -/

/-- The `external` flag computation in the `WindowHashGroup` constructor.
`hashGroups` holds one entry per hash bin: `none` for a null slot and
`some e` for a sorted hash group with `global_sort->external == e`.
`hasGlobalRows` is `gpart.rows != nullptr` (the unpartitioned single-bin
case), `gpartExternal` is `gpart.external`.  The result is `none` when
the constructor takes its early `return` (empty group), in which case
`external` is never assigned. -/
def hashGroupExternal (gpartExternal : Bool) (hasGlobalRows : Bool) (hash_bin : ℕ)
    (hashGroups : List (Option Bool)) : Option Bool :=
  if (hash_bin < hashGroups.length ∧ hashGroups.getD hash_bin none ≠ none) ∨
      (hasGlobalRows = true ∧ hash_bin = 0) then
    some (if hasGlobalRows = true ∧ hash_bin = 0 then
        -- unpartitioned case: `external = true;` with no condition
        true
      else if hash_bin < hashGroups.length then
        -- hashed case: `external = hash_group->global_sort->external;`
        -- (the slot is non-null here, so the default is never used)
        (hashGroups.getD hash_bin none).getD gpartExternal
      else gpartExternal)
  else none

/-! ## Operator construction: canonical descriptor and source order -/

/-- What the `PhysicalWindow` constructor reads from each select-list
entry (a `BoundWindowExpression`): the number of `PARTITION BY` keys and
the number of `ORDER BY` keys. -/
abbrev DescSig := ℕ × ℕ

/-- The constructor loop of `PhysicalWindow`: scan the select list with
running `(order_idx, max_orders)`, replacing them whenever a
descriptor has strictly more order keys
(`if (bound_window.orders.size() > max_orders)`). -/
def canonLoop (i order_idx max_orders : ℕ) : List DescSig → ℕ × ℕ
  | [] => (order_idx, max_orders)
  | d :: ds =>
    if max_orders < d.2 then canonLoop (i + 1) i d.2 ds
    else canonLoop (i + 1) order_idx max_orders ds

/-- `PhysicalWindow::order_idx`, the index of the canonical window
descriptor chosen at construction. -/
def orderIdx (descs : List DescSig) : ℕ :=
  (canonLoop 0 0 0 descs).1

/-- The largest number of order keys over all descriptors. -/
def maxOrders (descs : List DescSig) : ℕ :=
  descs.foldr (fun d a => max d.2 a) 0

/-- `PhysicalWindow::SupportsBatchIndex`:
`wexpr.partitions.empty() && !wexpr.orders.empty()` on the canonical
descriptor `select_list[order_idx]`. -/
def SupportsBatchIndex (descs : List DescSig) : Bool :=
  let wexpr := descs.getD (orderIdx descs) (0, 0)
  decide (wexpr.1 = 0) && decide (wexpr.2 ≠ 0)

/-- `enum class OrderPreservationType { NO_ORDER, FIXED_ORDER }` (the two
values this operator uses). -/
inductive OrderPreservationType : Type where
  | NO_ORDER
  | FIXED_ORDER
deriving DecidableEq, Repr

/-- `PhysicalWindow::SourceOrder`:
`SupportsBatchIndex() ? FIXED_ORDER : NO_ORDER`. -/
def SourceOrder (descs : List DescSig) : OrderPreservationType :=
  if SupportsBatchIndex descs then OrderPreservationType.FIXED_ORDER
  else OrderPreservationType.NO_ORDER

/-! ## Source-state constructor: batch bases and partition blocks -/

/-- A slot of `window_hash_groups` as the `WindowGlobalSourceState`
constructor sees it: `none` models a null `unique_ptr` slot,
`some none` a group whose `rows` collection is null, and
`some (some b)` a group whose `rows` holds `b` blocks. -/
abbrev GroupSlot := Option (Option ℕ)

/-- The `batch_base` assignment loop of the constructor: null slots and
groups with null `rows` are skipped with `continue`; every other group
receives the running block total as its `batch_base`, which then grows
by that group's block count.  Returns the assigned bases (`none` =
slot skipped, base untouched). -/
def assignBatchBases (batch_base : ℕ) : List GroupSlot → List (Option ℕ)
  | [] => []
  | none :: gs => none :: assignBatchBases batch_base gs
  | some none :: gs => none :: assignBatchBases batch_base gs
  | some (some b) :: gs => some batch_base :: assignBatchBases (batch_base + b) gs

/-- Total block count of the non-skipped groups of a slot list. -/
def sumBlocks : List GroupSlot → ℕ
  | [] => 0
  | some (some b) :: gs => b + sumBlocks gs
  | _ :: gs => sumBlocks gs

/-- The `partition_blocks` loop of the same constructor: it reads
`window_hash_groups[group_idx]->rows->blocks.size()` for every index,
with no null check on the slot or on `rows`; `none` models the null
dereference. -/
def collectPartitionBlocks (group_idx : ℕ) : List GroupSlot → Option (List (ℕ × ℕ))
  | [] => some []
  | none :: _ => none
  | some none :: _ => none
  | some (some b) :: gs =>
    (collectPartitionBlocks (group_idx + 1) gs).map (fun l => (b, group_idx) :: l)

/-- `WindowLocalSourceState::GetData`:
`batch_index = window_hash_group->batch_base + task->begin_idx` (the
group's base plus the block index being scanned). -/
def getDataBatchIndex (batch_base block_idx : ℕ) : ℕ :=
  batch_base + block_idx

/-! ## Source-state constructor: the task list -/

/-- `std::greater<std::pair<idx_t, idx_t>>` as a reflexive total order:
lexicographic greater-or-equal on `(block count, group index)`. -/
def pairGE (x y : ℕ × ℕ) : Bool :=
  decide (y.1 < x.1 ∨ (x.1 = y.1 ∧ y.2 ≤ x.2))

def insertDescPair (x : ℕ × ℕ) : List (ℕ × ℕ) → List (ℕ × ℕ)
  | [] => [x]
  | y :: ys => if pairGE x y then x :: y :: ys else y :: insertDescPair x ys

/-- `std::sort(partition_blocks.begin(), partition_blocks.end(),
std::greater<PartitionBlock>())`: since all group indices are distinct
the comparator is a strict total order on the pairs and the sorted
result is unique, so insertion sort computes the same list. -/
def sortPairsDesc : List (ℕ × ℕ) → List (ℕ × ℕ)
  | [] => []
  | x :: xs => insertDescPair x (sortPairsDesc xs)

/-- The task-emission loop for one `(group, stage)` pair:
`for (Task task(stage, group, max); task.begin_idx < task.max_idx;
task.begin_idx += per_thread) { task.end_idx = MinValue(task.begin_idx +
per_thread, task.max_idx); tasks.emplace_back(task); }`.  The `0 < per`
guard is semantically transparent: in the source `per_thread = 0` forces
`max_idx = 0` for every group (the largest group has no blocks), so the
body never runs there either. -/
def stageTasks (stage : WindowGroupStage) (group_idx max_idx per b : ℕ) : List Task :=
  if _h : b < max_idx ∧ 0 < per then
    ⟨stage, group_idx, max_idx, b, min (b + per) max_idx⟩ ::
      stageTasks stage group_idx max_idx per (b + per)
  else []
termination_by max_idx - b
decreasing_by omega

/-- The triple-nested task construction loop: groups in
`partition_blocks` order, stages in `[SINK, FINALIZE, GETDATA]` order. -/
def buildTasks (partition_blocks : List (ℕ × ℕ)) (per : ℕ) : List Task :=
  partition_blocks.flatMap fun pb =>
    stageTasks WindowGroupStage.SINK pb.2 pb.1 per 0 ++
    stageTasks WindowGroupStage.FINALIZE pb.2 pb.1 per 0 ++
    stageTasks WindowGroupStage.GETDATA pb.2 pb.1 per 0

/-- The task list built by the `WindowGlobalSourceState` constructor, as
a function of the per-group block counts (`groupBlocks[g] =
window_hash_groups[g]->rows->blocks.size()`) and the number of worker
threads: pair each block count with its group index, sort descending,
take `per_thread = ceil(front / threads)` from the largest group, and
emit the per-stage task lists. -/
def sourceTasks (groupBlocks : List ℕ) (threads : ℕ) : List Task :=
  let pblocks := sortPairsDesc (groupBlocks.enum.map fun p => (p.2, p.1))
  match pblocks with
  | [] => []
  | max_block :: _ => buildTasks pblocks ((max_block.1 + threads - 1) / threads)

/-- A group's `tasks_remaining` after source construction: one increment
per emitted task of that group. -/
def tasksRemaining (tasks : List Task) (g : ℕ) : ℕ :=
  tasks.countP fun t => t.group_idx == g

/-- The largest per-group block count (`M = blocks(largest_group)`). -/
def maxBlocks (groupBlocks : List ℕ) : ℕ :=
  groupBlocks.foldr max 0

/-- `per_thread = (max_block.first + threads - 1) / threads`, the ceiling
division of the largest group's block count by the thread count. -/
def perThread (groupBlocks : List ℕ) (threads : ℕ) : ℕ :=
  (maxBlocks groupBlocks + threads - 1) / threads

end PhysicalWindow

namespace PhysicalWindow

/-! ## Stage-machine lemmas (C2) -/

theorem GetStage_eq_GETDATA (g : GroupCounters) (h : g.finalized = g.blocks) :
    GetStage g = WindowGroupStage.GETDATA := by
  simp [GetStage, h]

theorem GetStage_eq_FINALIZE (g : GroupCounters) (hs : g.sunk = g.count)
    (hf : g.finalized ≠ g.blocks) : GetStage g = WindowGroupStage.FINALIZE := by
  simp [GetStage, hs, hf]

theorem GetStage_eq_SINK (g : GroupCounters) (hs : g.sunk ≠ g.count)
    (hf : g.finalized ≠ g.blocks) : GetStage g = WindowGroupStage.SINK := by
  simp [GetStage, hs, hf]

theorem eq_FINALIZE_iff (g : GroupCounters) :
    GetStage g = WindowGroupStage.FINALIZE ↔
      g.sunk = g.count ∧ g.finalized ≠ g.blocks := by
  unfold GetStage
  by_cases hf : g.finalized = g.blocks <;> by_cases hs : g.sunk = g.count <;>
    simp [hf, hs]

/-- The key safety invariant of the counter machine: `finalized` can only
have caught `blocks` once `sunk` has caught `count` (as long as a
non-empty group has at least one block, which holds for materialized
groups: `blocks = rows->blocks.size() ≥ 1` whenever rows exist). -/
theorem reachable_finalized_inv (count blocks : ℕ) (hcb : 0 < count → 0 < blocks)
    (s : ℕ × ℕ) (hr : GroupReachable count blocks s) :
    s.2 = blocks → s.1 = count := by
  induction hr with
  | refl =>
    intro h
    simp only at h ⊢
    have : count = 0 := by
      by_contra hc
      have := hcb (Nat.pos_of_ne_zero hc)
      omega
    omega
  | tail _ step ih =>
    cases step with
    | sink sunk finalized d hd hle =>
      intro h
      have := ih h
      omega
    | finalize sunk finalized d hd hle hstage =>
      intro _
      exact ((eq_FINALIZE_iff _).mp hstage).1

/-- One step never decreases the derived stage. -/
theorem GroupStep_stage_mono (count blocks : ℕ) (s s' : ℕ × ℕ)
    (h : GroupStep count blocks s s') :
    stageIdx (GetStage ⟨count, blocks, s.1, s.2⟩) ≤
      stageIdx (GetStage ⟨count, blocks, s'.1, s'.2⟩) := by
  cases h with
  | sink sunk finalized d hd hle =>
    by_cases hf : finalized = blocks
    · rw [GetStage_eq_GETDATA _ (by simpa using hf), GetStage_eq_GETDATA _ (by simpa using hf)]
    · have hs : sunk ≠ count := by omega
      rw [GetStage_eq_SINK _ (by simpa using hs) (by simpa using hf)]
      simp [stageIdx]
  | finalize sunk finalized d hd hle hstage =>
    have hs : sunk = count := ((eq_FINALIZE_iff _).mp hstage).1
    rw [show GetStage ⟨count, blocks, (sunk, finalized).1, (sunk, finalized).2⟩ =
          WindowGroupStage.FINALIZE from hstage]
    by_cases hf : finalized + d = blocks
    · rw [GetStage_eq_GETDATA _ (by simpa using hf)]
      simp [stageIdx]
    · rw [GetStage_eq_FINALIZE _ (by simpa using hs) (by simpa using hf)]

theorem GroupReachFrom_stage_mono (count blocks : ℕ) (s s' : ℕ × ℕ)
    (h : GroupReachFrom count blocks s s') :
    stageIdx (GetStage ⟨count, blocks, s.1, s.2⟩) ≤
      stageIdx (GetStage ⟨count, blocks, s'.1, s'.2⟩) := by
  induction h with
  | refl => exact le_refl _
  | tail _ step ih => exact le_trans ih (GroupStep_stage_mono _ _ _ _ step)

/-! ## C1 -/

/-- **C1.** `TryNextTask` behaves exactly as the claim describes. -/
theorem C1_TryNextTask_correct (s : SourceState) :
    TryNextTask s = TryNextTaskClaim s := by
  unfold TryNextTask TryNextTaskClaim
  by_cases hstop : s.stopped
  · simp [hstop]
  · by_cases hlen : s.tasks.length ≤ s.next_task
    · simp [hstop, hlen]
    · simp [hstop, hlen]

/-! ## C2 -/

/-- **C2.** For a hash group whose sizes satisfy `0 < count → 0 < blocks`
(every materialized non-empty group has at least one row block), every
reachable counter state `s` satisfies: `GetStage` is `SINK` while
`sunk < count`, `FINALIZE` once `sunk = count` with `finalized < blocks`,
and `GETDATA` once `finalized = blocks`; and along any further steps from
`s` to `s'` the derived stage never moves backwards through
SINK → FINALIZE → GETDATA. -/
theorem C2_GetStage_monotone (count blocks : ℕ) (hcb : 0 < count → 0 < blocks)
    (s s' : ℕ × ℕ) (hr : GroupReachable count blocks s)
    (hr' : GroupReachFrom count blocks s s') :
    (s.1 < count → GetStage ⟨count, blocks, s.1, s.2⟩ = WindowGroupStage.SINK) ∧
    (s.1 = count → s.2 < blocks →
      GetStage ⟨count, blocks, s.1, s.2⟩ = WindowGroupStage.FINALIZE) ∧
    (s.2 = blocks → GetStage ⟨count, blocks, s.1, s.2⟩ = WindowGroupStage.GETDATA) ∧
    stageIdx (GetStage ⟨count, blocks, s.1, s.2⟩) ≤
      stageIdx (GetStage ⟨count, blocks, s'.1, s'.2⟩) := by
  refine ⟨?_, ?_, ?_, GroupReachFrom_stage_mono count blocks s s' hr'⟩
  · intro hlt
    have hfin : s.2 ≠ blocks := fun h => by
      have := reachable_finalized_inv count blocks hcb s hr h
      omega
    exact GetStage_eq_SINK _ (by simp; omega) (by simpa using hfin)
  · intro hs hf
    exact GetStage_eq_FINALIZE _ (by simpa using hs) (by simp; omega)
  · intro hf
    exact GetStage_eq_GETDATA _ (by simpa using hf)

/-- Witness for C2 at `count = blocks = 1`, with the two-step run
`(0,0) → (1,0) → (1,1)`. -/
theorem C2_GetStage_monotone_witness :
    (0 < 1 → 0 < 1) ∧ GroupReachable 1 1 (0, 0) ∧ GroupReachFrom 1 1 (0, 0) (1, 1) ∧
    ((0 < 1 → GetStage ⟨1, 1, 0, 0⟩ = WindowGroupStage.SINK) ∧
     (0 = 1 → 0 < 1 → GetStage ⟨1, 1, 0, 0⟩ = WindowGroupStage.FINALIZE) ∧
     (0 = 1 → GetStage ⟨1, 1, 0, 0⟩ = WindowGroupStage.GETDATA) ∧
     stageIdx (GetStage ⟨1, 1, 0, 0⟩) ≤ stageIdx (GetStage ⟨1, 1, 1, 1⟩)) := by
  have hstep1 : GroupStep 1 1 (0, 0) (0 + 1, 0) :=
    GroupStep.sink 0 0 1 (by decide) (by decide)
  have hstep2 : GroupStep 1 1 (1, 0) (1, 0 + 1) :=
    GroupStep.finalize 1 0 1 (by decide) (by decide) (by decide)
  have hr : GroupReachable 1 1 (0, 0) := Relation.ReflTransGen.refl
  have hr' : GroupReachFrom 1 1 (0, 0) (1, 1) :=
    Relation.ReflTransGen.head hstep1 (Relation.ReflTransGen.single hstep2)
  exact ⟨fun h => h, hr, hr',
    C2_GetStage_monotone 1 1 (fun h => h) (0, 0) (1, 1) hr hr'⟩

/-! ## C4 -/

/-- **C4, counterexample.** A group that has completed all its counters
(`sunk = count = 1`, `finalized = blocks = 1`) and has one task left is
released by `FinishTask` even though its derived stage is `GETDATA`,
not `DONE` — the code checks no stage condition at all. -/
theorem C4_release_counterexample :
    (FinishTask 1).2 = true ∧
    GetStage ⟨1, 1, 1, 1⟩ = WindowGroupStage.GETDATA ∧
    GetStage ⟨1, 1, 1, 1⟩ ≠ WindowGroupStage.DONE := by
  refine ⟨?_, by decide, by decide⟩
  show decide (decIdx 1 = 0) = true
  norm_num [decIdx]

/-- **C4, amended.** `FinishTask` decrements `tasks_remaining` and releases
the group's memory exactly when the decremented counter reaches zero;
no stage condition is consulted (and `GetStage` can never report `DONE`,
so release always happens at a stage other than `DONE`). -/
theorem C4_FinishTask_release (tr : ℕ) (g : GroupCounters)
    (h1 : 0 < tr) (h2 : tr < 2 ^ 64) :
    (FinishTask tr).1 = tr - 1 ∧
    ((FinishTask tr).2 = true ↔ tr = 1) ∧
    GetStage g ≠ WindowGroupStage.DONE := by
  have hdec : decIdx tr = tr - 1 := by
    unfold decIdx
    omega
  refine ⟨hdec, ?_, ?_⟩
  · simp only [FinishTask, hdec, decide_eq_true_eq]
    omega
  · unfold GetStage
    by_cases hf : g.finalized = g.blocks <;> by_cases hs : g.sunk = g.count <;>
      simp [hf, hs]

/-- Witness for C4 at `tasks_remaining = 1`. -/
theorem C4_FinishTask_release_witness :
    0 < 1 ∧ 1 < 2 ^ 64 ∧
    ((FinishTask 1).1 = 0 ∧
     ((FinishTask 1).2 = true ↔ 1 = 1) ∧
     GetStage ⟨1, 1, 1, 1⟩ ≠ WindowGroupStage.DONE) :=
  ⟨by norm_num, by norm_num,
    C4_FinishTask_release 1 ⟨1, 1, 1, 1⟩ (by norm_num) (by norm_num)⟩

/-! ## C5 -/

/-- **C5.** `PhysicalWindow::Finalize` realizes exactly the outcome table
of the claim: `NO_OUTPUT_POSSIBLE` for an empty sink; for a present
unpartitioned row collection, `READY` iff it is non-empty, with no sort
event; `NO_OUTPUT_POSSIBLE` when there are no merge tasks; otherwise
exactly one `PartitionMergeEvent` and `READY`. -/
theorem C5_Finalize_outcomes (s : FinalizeInputs) :
    PhysicalWindowFinalize s = FinalizeClaim s := by
  unfold PhysicalWindowFinalize FinalizeClaim
  by_cases hc : s.count = 0
  · simp [hc]
  · cases hrows : s.rows with
    | some rcount =>
      by_cases hr : rcount = 0 <;> simp [hc, hrows, hr, Nat.pos_of_ne_zero]
    | none =>
      by_cases hm : s.hasMergeTasks <;> simp [hc, hrows, hm]

/-! ## C7 -/

/-- **C7, counterexample.** The compiled (`#if 1`) exception path of
`PhysicalWindow::GetData` does not flush the blocked-task queue: a
queued waiter stays queued and its callback is never fired. -/
theorem C7_no_flush_counterexample :
    (getDataCatchActive ⟨false, [7], []⟩).blocked_tasks = [7] ∧
    (getDataCatchActive ⟨false, [7], []⟩).flushed = [] := by
  constructor <;> rfl

/-- **C7, amended.** On any exception inside a worker's `GetData` call the
active code sets `gsource.stopped` to `true` and re-raises, leaving the
blocked-task queue untouched; the flush of every queued waiter exists
only in the disabled (`#else`) queue-based variant, whose handler does
set `stopped`, fire every queued callback, and empty the queue.  (The
active variant never calls `UpdateBlockedTasks`, so its queue is always
empty and no waiter can be stranded.) -/
theorem C7_exception_policy :
    (∀ s : BlockedState,
      (getDataCatchActive s).stopped = true ∧
      (getDataCatchActive s).blocked_tasks = s.blocked_tasks ∧
      (getDataCatchActive s).flushed = s.flushed) ∧
    (∀ (i : ℕ) (s : BlockedState),
      (getDataCatchQueue i s).stopped = true ∧
      (getDataCatchQueue i s).blocked_tasks = [] ∧
      (getDataCatchQueue i s).flushed = s.flushed ++ s.blocked_tasks) := by
  constructor
  · intro s
    exact ⟨rfl, rfl, rfl⟩
  · intro i s
    unfold getDataCatchQueue UpdateBlockedTasks
    simp

/-! ## C10 -/

/-- **C10.** In the unpartitioned single-bin case (`gpart.rows` present
and `hash_bin == 0`) the constructor sets `external = true`
unconditionally, whatever `gpart.external` is; in the hashed case (any
other bin with a populated slot) it copies the sorter's external flag. -/
theorem C10_external_flag :
    (∀ (gpartExternal : Bool) (hashGroups : List (Option Bool)),
      hashGroupExternal gpartExternal true 0 hashGroups = some true) ∧
    (∀ (gpartExternal hasGlobalRows : Bool) (hash_bin : ℕ)
        (hashGroups : List (Option Bool)) (e : Bool),
      ¬(hasGlobalRows = true ∧ hash_bin = 0) →
      hash_bin < hashGroups.length →
      hashGroups.getD hash_bin none = some e →
      hashGroupExternal gpartExternal hasGlobalRows hash_bin hashGroups = some e) := by
  constructor
  · intro ge hgs
    unfold hashGroupExternal
    simp
  · intro ge hrows bin hgs e hno hbin hslot
    unfold hashGroupExternal
    rw [if_pos (Or.inl ⟨hbin, by rw [hslot]; simp⟩), if_neg hno, if_pos hbin, hslot]
    rfl

/-! ## Canonical-descriptor lemmas (C8) -/

theorem canonLoop_snd (ds : List DescSig) :
    ∀ i oi mo, (canonLoop i oi mo ds).2 = max mo (maxOrders ds) := by
  induction ds with
  | nil =>
    intro i oi mo
    simp [canonLoop, maxOrders]
  | cons d ds ih =>
    intro i oi mo
    by_cases h : mo < d.2
    · rw [canonLoop, if_pos h, ih]
      simp only [maxOrders, List.foldr_cons]
      omega
    · rw [canonLoop, if_neg h, ih]
      simp only [maxOrders, List.foldr_cons]
      omega

theorem canonLoop_fst_spec (ds : List DescSig) :
    ∀ i oi mo,
      ((canonLoop i oi mo ds).1 = oi ∧ (canonLoop i oi mo ds).2 = mo) ∨
      (∃ j, j < ds.length ∧ (canonLoop i oi mo ds).1 = i + j ∧
        (ds.getD j (0, 0)).2 = (canonLoop i oi mo ds).2) := by
  induction ds with
  | nil =>
    intro i oi mo
    left
    simp [canonLoop]
  | cons d ds ih =>
    intro i oi mo
    by_cases h : mo < d.2
    · rw [canonLoop, if_pos h]
      right
      rcases ih (i + 1) i d.2 with ⟨h1, h2⟩ | ⟨j, hj, h1, h2⟩
      · exact ⟨0, by simp, by rw [h1]; omega, by simpa using h2.symm⟩
      · exact ⟨j + 1, by simpa using hj, by rw [h1]; omega, by simpa using h2⟩
    · rw [canonLoop, if_neg h]
      rcases ih (i + 1) oi mo with ⟨h1, h2⟩ | ⟨j, hj, h1, h2⟩
      · left
        exact ⟨h1, h2⟩
      · right
        exact ⟨j + 1, by simpa using hj, by rw [h1]; omega, by simpa using h2⟩

theorem le_maxOrders (descs : List DescSig) (d : DescSig) (hd : d ∈ descs) :
    d.2 ≤ maxOrders descs := by
  induction descs with
  | nil => cases hd
  | cons a as ih =>
    simp only [maxOrders, List.foldr_cons]
    rcases List.mem_cons.mp hd with h | h
    · subst h
      omega
    · have := ih h
      simp only [maxOrders] at this
      omega

/-! ## C8 -/

/-- **C8.** The canonical descriptor is the one with the most order keys,
and `SourceOrder()` is `FIXED_ORDER` (equivalently `SupportsBatchIndex()`
is `true`) iff that descriptor has no `PARTITION BY` key and at least
one `ORDER BY` key; otherwise `NO_ORDER` / `false`. -/
theorem C8_SourceOrder_characterization (descs : List DescSig) (hne : descs ≠ []) :
    (orderIdx descs < descs.length ∧
      (descs.getD (orderIdx descs) (0, 0)).2 = maxOrders descs) ∧
    (SupportsBatchIndex descs = true ↔
      (descs.getD (orderIdx descs) (0, 0)).1 = 0 ∧
        0 < (descs.getD (orderIdx descs) (0, 0)).2) ∧
    (SourceOrder descs = OrderPreservationType.FIXED_ORDER ↔
      SupportsBatchIndex descs = true) ∧
    (SourceOrder descs = OrderPreservationType.NO_ORDER ↔
      SupportsBatchIndex descs = false) := by
  have hlen : 0 < descs.length := List.length_pos.mpr hne
  have hsnd := canonLoop_snd descs 0 0 0
  have hmain : orderIdx descs < descs.length ∧
      (descs.getD (orderIdx descs) (0, 0)).2 = maxOrders descs := by
    rcases canonLoop_fst_spec descs 0 0 0 with ⟨h1, h2⟩ | ⟨j, hj, h1, h2⟩
    · have hmax0 : maxOrders descs = 0 := by omega
      have hidx : orderIdx descs = 0 := h1
      refine ⟨by omega, ?_⟩
      rw [hidx, hmax0]
      have hmem : descs.getD 0 (0, 0) ∈ descs := by
        rw [List.getD_eq_getElem descs (0, 0) hlen]
        exact List.getElem_mem hlen
      have := le_maxOrders descs _ hmem
      omega
    · have hidx : orderIdx descs = j := by
        unfold orderIdx
        omega
      refine ⟨by omega, ?_⟩
      rw [hidx, h2]
      omega
  refine ⟨hmain, ?_, ?_, ?_⟩
  · unfold SupportsBatchIndex
    simp only [Bool.and_eq_true, decide_eq_true_eq]
    constructor
    · rintro ⟨ha, hb⟩
      exact ⟨ha, Nat.pos_of_ne_zero hb⟩
    · rintro ⟨ha, hb⟩
      exact ⟨ha, by omega⟩
  · unfold SourceOrder
    by_cases h : SupportsBatchIndex descs <;> simp [h]
  · unfold SourceOrder
    by_cases h : SupportsBatchIndex descs <;> simp [h]

/-- Witness for C8 on the descriptor list `[(1, 0), (0, 2)]`: the second
entry has the most order keys, no partitions, so order is preserved. -/
theorem C8_SourceOrder_characterization_witness :
    ([((1 : ℕ), (0 : ℕ)), (0, 2)] ≠ ([] : List DescSig)) ∧
    ((orderIdx [(1, 0), (0, 2)] < ([((1 : ℕ), (0 : ℕ)), (0, 2)] : List DescSig).length ∧
      (([((1 : ℕ), (0 : ℕ)), (0, 2)] : List DescSig).getD (orderIdx [(1, 0), (0, 2)]) (0, 0)).2 =
        maxOrders [(1, 0), (0, 2)]) ∧
    (SupportsBatchIndex [(1, 0), (0, 2)] = true ↔
      (([((1 : ℕ), (0 : ℕ)), (0, 2)] : List DescSig).getD (orderIdx [(1, 0), (0, 2)]) (0, 0)).1 = 0 ∧
        0 < (([((1 : ℕ), (0 : ℕ)), (0, 2)] : List DescSig).getD (orderIdx [(1, 0), (0, 2)]) (0, 0)).2) ∧
    (SourceOrder [(1, 0), (0, 2)] = OrderPreservationType.FIXED_ORDER ↔
      SupportsBatchIndex [(1, 0), (0, 2)] = true) ∧
    (SourceOrder [(1, 0), (0, 2)] = OrderPreservationType.NO_ORDER ↔
      SupportsBatchIndex [(1, 0), (0, 2)] = false)) :=
  ⟨by simp, C8_SourceOrder_characterization [(1, 0), (0, 2)] (by simp)⟩

/-- Witness for C10 in the hashed case (bin 1, sorter not external,
partitioner external) and the unpartitioned case. -/
theorem C10_external_flag_witness :
    hashGroupExternal true true 0 [none, some false] = some true ∧
    (¬((false : Bool) = true ∧ (1 : ℕ) = 0) ∧ 1 < ([none, some false] : List (Option Bool)).length ∧
      ([none, some false] : List (Option Bool)).getD 1 none = some false ∧
      hashGroupExternal true false 1 [none, some false] = some false) :=
  ⟨C10_external_flag.1 true [none, some false],
    by
      refine ⟨by simp, by simp, by rfl, ?_⟩
      exact C10_external_flag.2 true false 1 [none, some false] false (by simp) (by simp) rfl⟩

/-! ## Batch-base lemmas (C6) -/

theorem assignBatchBases_get? (gs : List GroupSlot) :
    ∀ acc i b, gs.get? i = some (some (some b)) →
      (assignBatchBases acc gs).get? i = some (some (acc + sumBlocks (gs.take i))) := by
  induction gs with
  | nil =>
    intro acc i b h
    simp at h
  | cons g gs ih =>
    intro acc i b h
    cases i with
    | zero =>
      simp only [List.get?_cons_zero, Option.some.injEq] at h
      subst h
      simp [assignBatchBases, sumBlocks]
    | succ j =>
      simp only [List.get?_cons_succ] at h
      rcases g with _ | g'
      · simpa [assignBatchBases, sumBlocks] using ih acc j b h
      · rcases g' with _ | b'
        · simpa [assignBatchBases, sumBlocks] using ih acc j b h
        · have := ih (acc + b') j b h
          simp only [assignBatchBases, List.get?_cons_succ, List.take_succ_cons, sumBlocks]
          rw [this]
          congr 2
          omega

/-! ## C6 -/

/-- **C6.** The `batch_base` assigned to a non-skipped group at slot `i`
is the total block count of the non-skipped groups before it (null or
row-less slots contribute nothing); `GetData` reports
`batch_base + block_idx` as the batch index; and for a single sorted
group the base is `0`, so the per-block batch indices are strictly
monotone starting at 0. -/
theorem C6_batch_base (gs : List GroupSlot) (i b block_idx b0 j k : ℕ)
    (hi : gs.get? i = some (some (some b))) (hjk : j < k) :
    (assignBatchBases 0 gs).get? i = some (some (sumBlocks (gs.take i))) ∧
    getDataBatchIndex (sumBlocks (gs.take i)) block_idx =
      sumBlocks (gs.take i) + block_idx ∧
    assignBatchBases 0 [some (some b0)] = [some 0] ∧
    getDataBatchIndex 0 j < getDataBatchIndex 0 k ∧
    getDataBatchIndex 0 0 = 0 := by
  refine ⟨?_, rfl, rfl, ?_, rfl⟩
  · simpa using assignBatchBases_get? gs 0 i b hi
  · simpa [getDataBatchIndex] using hjk

/-- Witness for C6: slots `[null, row-less, 2 blocks, 5 blocks]`; the
last group's base is 2. -/
theorem C6_batch_base_witness :
    ([none, some none, some (some 2), some (some 5)] : List GroupSlot).get? 3 =
        some (some (some 5)) ∧ 1 < 2 ∧
    ((assignBatchBases 0 [none, some none, some (some 2), some (some 5)]).get? 3 =
        some (some (sumBlocks (([none, some none, some (some 2), some (some 5)] :
          List GroupSlot).take 3))) ∧
      getDataBatchIndex (sumBlocks (([none, some none, some (some 2), some (some 5)] :
          List GroupSlot).take 3)) 4 =
        sumBlocks (([none, some none, some (some 2), some (some 5)] :
          List GroupSlot).take 3) + 4 ∧
      assignBatchBases 0 [some (some 7)] = [some 0] ∧
      getDataBatchIndex 0 1 < getDataBatchIndex 0 2 ∧
      getDataBatchIndex 0 0 = 0) :=
  ⟨rfl, by omega,
    C6_batch_base [none, some none, some (some 2), some (some 5)] 3 5 4 7 1 2 rfl (by omega)⟩

/-! ## Partition-blocks safety lemmas (C9) -/

theorem collectPartitionBlocks_isSome (gs : List GroupSlot) :
    ∀ s, (collectPartitionBlocks s gs).isSome = true ↔
      ∀ g ∈ gs, ∃ b, g = some (some b) := by
  induction gs with
  | nil =>
    intro s
    simp [collectPartitionBlocks]
  | cons g gs ih =>
    intro s
    rcases g with _ | g'
    · simp [collectPartitionBlocks]
    · rcases g' with _ | b'
      · simp [collectPartitionBlocks]
      · simp [collectPartitionBlocks, ih (s + 1)]

/-! ## C9 -/

/-- **C9.** The `partition_blocks` loop dereferences every slot and its
`rows` with no null check: it completes exactly when every slot holds a
group with a non-null `rows` collection.  The immediately preceding
`batch_base` loop is total on the same slot lists and skips both null
cases. -/
theorem C9_partition_blocks_deref (gs : List GroupSlot) :
    ((collectPartitionBlocks 0 gs).isSome = true ↔
      ∀ g ∈ gs, ∃ b, g = some (some b)) ∧
    (∀ acc, (assignBatchBases acc gs).length = gs.length) ∧
    (∀ (acc : ℕ) (gs' : List GroupSlot),
      assignBatchBases acc (none :: gs') = none :: assignBatchBases acc gs') ∧
    (∀ (acc : ℕ) (gs' : List GroupSlot),
      assignBatchBases acc (some none :: gs') = none :: assignBatchBases acc gs') := by
  refine ⟨collectPartitionBlocks_isSome gs 0, ?_, fun acc gs' => rfl, fun acc gs' => rfl⟩
  intro acc
  induction gs generalizing acc with
  | nil => rfl
  | cons g gs ih =>
    rcases g with _ | g'
    · simpa [assignBatchBases] using ih acc
    · rcases g' with _ | b'
      · simpa [assignBatchBases] using ih acc
      · simpa [assignBatchBases] using ih (acc + b')

/-! ## Task-list lemmas (C3) -/

theorem stageTasks_length (st : WindowGroupStage) (g m per : ℕ) (hper : 0 < per) :
    ∀ b, (stageTasks st g m per b).length = (m - b + per - 1) / per := by
  suffices H : ∀ n b, m - b ≤ n →
      (stageTasks st g m per b).length = (m - b + per - 1) / per by
    intro b
    exact H (m - b) b le_rfl
  intro n
  induction n with
  | zero =>
    intro b hb
    rw [stageTasks, dif_neg (by omega)]
    have hz : m - b = 0 := by omega
    simp [hz, Nat.div_eq_of_lt (show per - 1 < per by omega)]
  | succ n ih =>
    intro b hb
    by_cases hbm : b < m
    · rw [stageTasks, dif_pos ⟨hbm, hper⟩]
      simp only [List.length_cons]
      rw [ih (b + per) (by omega)]
      have h1 : m - b + per - 1 = (m - b - 1) + per := by omega
      rw [h1, Nat.add_div_right _ hper]
      by_cases hm2 : b + per ≤ m
      · have h2 : m - (b + per) + per - 1 = m - b - 1 := by omega
        rw [h2]
      · have h2 : m - (b + per) + per - 1 = per - 1 := by omega
        rw [h2, Nat.div_eq_of_lt (by omega), Nat.div_eq_of_lt (by omega)]
    · rw [stageTasks, dif_neg (by omega)]
      have hz : m - b = 0 := by omega
      simp [hz, Nat.div_eq_of_lt (show per - 1 < per by omega)]

theorem stageTasks_shape (st : WindowGroupStage) (g m per : ℕ) :
    ∀ b t, t ∈ stageTasks st g m per b →
      t.stage = st ∧ t.group_idx = g ∧ t.max_idx = m ∧ b ≤ t.begin_idx ∧
        t.begin_idx < m ∧ t.end_idx = min (t.begin_idx + per) m ∧
        ∃ k, t.begin_idx = b + k * per := by
  suffices H : ∀ n b, m - b ≤ n → ∀ t, t ∈ stageTasks st g m per b →
      t.stage = st ∧ t.group_idx = g ∧ t.max_idx = m ∧ b ≤ t.begin_idx ∧
        t.begin_idx < m ∧ t.end_idx = min (t.begin_idx + per) m ∧
        ∃ k, t.begin_idx = b + k * per by
    intro b t ht
    exact H (m - b) b le_rfl t ht
  intro n
  induction n with
  | zero =>
    intro b hb t ht
    rw [stageTasks, dif_neg (by omega)] at ht
    cases ht
  | succ n ih =>
    intro b hb t ht
    by_cases hguard : b < m ∧ 0 < per
    · rw [stageTasks, dif_pos hguard] at ht
      rcases List.mem_cons.mp ht with h | h
      · subst h
        refine ⟨rfl, rfl, rfl, le_refl _, hguard.1, rfl, 0, ?_⟩
        show b = b + 0 * per
        omega
      · obtain ⟨h1, h2, h3, h4, h5, h6, k, hk⟩ := ih (b + per) (by omega) t h
        refine ⟨h1, h2, h3, by omega, h5, h6, k + 1, ?_⟩
        rw [Nat.succ_mul]
        omega
    · rw [stageTasks, dif_neg hguard] at ht
      cases ht

theorem stageTasks_cover (st : WindowGroupStage) (g m per : ℕ) (hper : 0 < per) :
    ∀ b j, b ≤ j → j < m →
      ∃ t ∈ stageTasks st g m per b, t.begin_idx ≤ j ∧ j < t.end_idx := by
  suffices H : ∀ n b j, m - b ≤ n → b ≤ j → j < m →
      ∃ t ∈ stageTasks st g m per b, t.begin_idx ≤ j ∧ j < t.end_idx by
    intro b j hbj hjm
    exact H (m - b) b j le_rfl hbj hjm
  intro n
  induction n with
  | zero =>
    intro b j hb hbj hjm
    omega
  | succ n ih =>
    intro b j hb hbj hjm
    have hguard : b < m ∧ 0 < per := ⟨by omega, hper⟩
    rw [stageTasks, dif_pos hguard]
    by_cases hj : j < b + per
    · refine ⟨⟨st, g, m, b, min (b + per) m⟩, List.mem_cons_self _ _, hbj, ?_⟩
      show j < min (b + per) m
      omega
    · obtain ⟨t, ht, h1, h2⟩ := ih (b + per) j (by omega) (by omega) hjm
      exact ⟨t, List.mem_cons_of_mem _ ht, h1, h2⟩

theorem pairGE_total (x y : ℕ × ℕ) : pairGE x y = true ∨ pairGE y x = true := by
  simp only [pairGE, decide_eq_true_eq]
  omega

theorem pairGE_trans (x y z : ℕ × ℕ) (h1 : pairGE x y = true) (h2 : pairGE y z = true) :
    pairGE x z = true := by
  simp only [pairGE, decide_eq_true_eq] at h1 h2 ⊢
  omega

theorem insertDescPair_perm (x : ℕ × ℕ) (l : List (ℕ × ℕ)) :
    (insertDescPair x l).Perm (x :: l) := by
  induction l with
  | nil => exact List.Perm.refl _
  | cons y ys ih =>
    rw [insertDescPair]
    by_cases h : pairGE x y
    · rw [if_pos h]
    · rw [if_neg h]
      exact (ih.cons y).trans (List.Perm.swap x y ys)

theorem sortPairsDesc_perm (l : List (ℕ × ℕ)) : (sortPairsDesc l).Perm l := by
  induction l with
  | nil => exact List.Perm.refl _
  | cons x xs ih =>
    exact (insertDescPair_perm x (sortPairsDesc xs)).trans (ih.cons x)

theorem insertDescPair_sorted (x : ℕ × ℕ) (l : List (ℕ × ℕ))
    (h : l.Pairwise (fun a b => pairGE a b = true)) :
    (insertDescPair x l).Pairwise (fun a b => pairGE a b = true) := by
  induction l with
  | nil => simp [insertDescPair]
  | cons y ys ih =>
    obtain ⟨hy, hys⟩ := List.pairwise_cons.mp h
    rw [insertDescPair]
    by_cases hxy : pairGE x y
    · rw [if_pos hxy]
      refine List.pairwise_cons.mpr ⟨?_, h⟩
      intro z hz
      rcases List.mem_cons.mp hz with rfl | hz
      · exact hxy
      · exact pairGE_trans x y z hxy (hy z hz)
    · rw [if_neg hxy]
      refine List.pairwise_cons.mpr ⟨?_, ih hys⟩
      intro z hz
      have hz' : z = x ∨ z ∈ ys := by
        simpa using (insertDescPair_perm x ys).mem_iff.mp hz
      rcases hz' with rfl | hz'
      · rcases pairGE_total z y with h' | h'
        · exact absurd h' hxy
        · exact h'
      · exact hy z hz'

theorem sortPairsDesc_sorted (l : List (ℕ × ℕ)) :
    (sortPairsDesc l).Pairwise (fun a b => pairGE a b = true) := by
  induction l with
  | nil => simp [sortPairsDesc]
  | cons x xs ih => exact insertDescPair_sorted x (sortPairsDesc xs) ih

theorem sortPairsDesc_head_max (l : List (ℕ × ℕ)) (x : ℕ × ℕ) (xs : List (ℕ × ℕ))
    (h : sortPairsDesc l = x :: xs) : ∀ y ∈ l, y.1 ≤ x.1 := by
  intro y hy
  have hy' : y ∈ x :: xs := by
    rw [← h]
    exact (sortPairsDesc_perm l).mem_iff.mpr hy
  rcases List.mem_cons.mp hy' with rfl | hmem
  · exact le_refl _
  · have hsorted := sortPairsDesc_sorted l
    rw [h] at hsorted
    have := (List.pairwise_cons.mp hsorted).1 y hmem
    simp only [pairGE, decide_eq_true_eq] at this
    omega

theorem le_foldr_max (l : List ℕ) (a : ℕ) (ha : a ∈ l) : a ≤ l.foldr max 0 := by
  induction l with
  | nil => cases ha
  | cons x xs ih =>
    simp only [List.foldr_cons]
    rcases List.mem_cons.mp ha with rfl | ha
    · omega
    · have := ih ha
      omega

theorem foldr_max_le (l : List ℕ) (c : ℕ) (h : ∀ a ∈ l, a ≤ c) : l.foldr max 0 ≤ c := by
  induction l with
  | nil => simp
  | cons x xs ih =>
    simp only [List.foldr_cons]
    have h1 := h x (List.mem_cons_self _ _)
    have h2 := ih fun a ha => h a (List.mem_cons_of_mem _ ha)
    omega

theorem filter_stageTasks_self (st : WindowGroupStage) (g m per : ℕ) :
    (stageTasks st g m per 0).filter (fun t => t.group_idx == g) =
      stageTasks st g m per 0 :=
  List.filter_eq_self.mpr fun t ht => by
    have := (stageTasks_shape st g m per 0 t ht).2.1
    simp [this]

theorem filter_stageTasks_ne (st : WindowGroupStage) (g' m per g : ℕ) (hne : g' ≠ g) :
    (stageTasks st g' m per 0).filter (fun t => t.group_idx == g) = [] :=
  List.filter_eq_nil_iff.mpr fun t ht => by
    have := (stageTasks_shape st g' m per 0 t ht).2.1
    simp [this, hne]

theorem mem_buildTasks_group (pbs : List (ℕ × ℕ)) (per : ℕ) (t : Task)
    (ht : t ∈ buildTasks pbs per) : t.group_idx ∈ pbs.map Prod.snd := by
  obtain ⟨pb, hpb, htb⟩ := List.mem_flatMap.mp ht
  have hg : t.group_idx = pb.2 := by
    rcases List.mem_append.mp htb with h | h
    · rcases List.mem_append.mp h with h' | h'
      · exact (stageTasks_shape _ _ _ _ _ _ h').2.1
      · exact (stageTasks_shape _ _ _ _ _ _ h').2.1
    · exact (stageTasks_shape _ _ _ _ _ _ h).2.1
  rw [hg]
  exact List.mem_map.mpr ⟨pb, hpb, rfl⟩

theorem buildTasks_filter_single (per g b : ℕ) (pbs : List (ℕ × ℕ))
    (hmem : (b, g) ∈ pbs) (hnd : (pbs.map Prod.snd).Nodup) :
    (buildTasks pbs per).filter (fun t => t.group_idx == g) =
      stageTasks WindowGroupStage.SINK g b per 0 ++
        stageTasks WindowGroupStage.FINALIZE g b per 0 ++
        stageTasks WindowGroupStage.GETDATA g b per 0 := by
  induction pbs with
  | nil => cases hmem
  | cons pb pbs ih =>
    have hnd' := hnd
    simp only [List.map_cons, List.nodup_cons] at hnd'
    obtain ⟨hhead, htail⟩ := hnd'
    rw [buildTasks, List.flatMap_cons, List.filter_append]
    have hrest : (buildTasks pbs per) = pbs.flatMap fun pb =>
        stageTasks WindowGroupStage.SINK pb.2 pb.1 per 0 ++
          stageTasks WindowGroupStage.FINALIZE pb.2 pb.1 per 0 ++
          stageTasks WindowGroupStage.GETDATA pb.2 pb.1 per 0 := rfl
    rcases List.mem_cons.mp hmem with heq | hmem'
    · have hpb2 : pb.2 = g := by rw [← heq]
      have hpb1 : pb.1 = b := by rw [← heq]
      have hzero : (buildTasks pbs per).filter (fun t => t.group_idx == g) = [] := by
        apply List.filter_eq_nil_iff.mpr
        intro t htm
        have hmem_snd := mem_buildTasks_group pbs per t htm
        simp only [beq_iff_eq]
        intro hEq
        rw [hEq, ← hpb2] at hmem_snd
        exact hhead hmem_snd
      rw [← hrest, hzero, List.append_nil, List.filter_append, List.filter_append,
        hpb1, hpb2, filter_stageTasks_self, filter_stageTasks_self, filter_stageTasks_self]
    · have hpbne : pb.2 ≠ g := by
        intro hEq
        apply hhead
        rw [hEq]
        exact List.mem_map.mpr ⟨(b, g), hmem', rfl⟩
      rw [← hrest, ih hmem' htail, List.filter_append, List.filter_append,
        filter_stageTasks_ne _ _ _ _ _ hpbne, filter_stageTasks_ne _ _ _ _ _ hpbne,
        filter_stageTasks_ne _ _ _ _ _ hpbne]
      rfl

theorem sourceTasks_eq_buildTasks (gb : List ℕ) (threads : ℕ) (hne : gb ≠ []) :
    sourceTasks gb threads =
      buildTasks (sortPairsDesc (gb.enum.map fun p => (p.2, p.1)))
        (perThread gb threads) := by
  have hplne : (gb.enum.map fun p => (p.2, p.1)) ≠ [] := by
    simp only [ne_eq, List.map_eq_nil_iff, List.enum_eq_nil]
    exact hne
  cases h : sortPairsDesc (gb.enum.map fun p => (p.2, p.1)) with
  | nil =>
    exfalso
    have hlen := (sortPairsDesc_perm (gb.enum.map fun p => (p.2, p.1))).length_eq
    rw [h] at hlen
    exact hplne (List.length_eq_zero.mp hlen.symm)
  | cons mx rest =>
    have hmax : mx.1 = maxBlocks gb := by
      apply le_antisymm
      · have hmx_mem : mx ∈ gb.enum.map fun p => (p.2, p.1) :=
          (sortPairsDesc_perm _).mem_iff.mp (h ▸ List.mem_cons_self mx rest)
        obtain ⟨p, hp, hps⟩ := List.mem_map.mp hmx_mem
        have h1 : mx.1 = p.2 := by rw [← hps]
        have hp2 : p.2 ∈ gb := by
          have hmem2 : p.2 ∈ List.map Prod.snd gb.enum :=
            List.mem_map.mpr ⟨p, hp, rfl⟩
          rwa [List.enum_map_snd] at hmem2
        rw [h1]
        exact le_foldr_max gb p.2 hp2
      · apply foldr_max_le
        intro a ha
        have ha' : a ∈ List.map Prod.snd gb.enum := by
          rw [List.enum_map_snd]
          exact ha
        obtain ⟨p, hp, hpa⟩ := List.mem_map.mp ha'
        have hy : (p.2, p.1) ∈ gb.enum.map (fun p => (p.2, p.1)) :=
          List.mem_map.mpr ⟨p, hp, rfl⟩
        have := sortPairsDesc_head_max _ mx rest h (p.2, p.1) hy
        simpa [hpa] using this
    simp only [sourceTasks]
    rw [h, perThread, ← hmax]

/-! ## C3 -/

/-- **C3.** For every group `g` with `b > 0` blocks, the constructed task
list restricted to `g` is exactly the SINK, FINALIZE and GETDATA block
decompositions, in that order; hence `tasks_remaining(g) =
3 * ceil(b / per_thread)` with `per_thread = ceil(M / threads)` for `M`
the largest block count; every task's range has end
`min(begin + per_thread, b)` with `begin` a multiple of `per_thread`
below `b`; and for each of the three stages the ranges cover `[0, b)`. -/
theorem C3_task_construction (gb : List ℕ) (threads g b : ℕ)
    (ht : 0 < threads) (hg : gb.get? g = some b) (hb : 0 < b) :
    ((sourceTasks gb threads).filter (fun t => t.group_idx == g) =
      stageTasks WindowGroupStage.SINK g b (perThread gb threads) 0 ++
        stageTasks WindowGroupStage.FINALIZE g b (perThread gb threads) 0 ++
        stageTasks WindowGroupStage.GETDATA g b (perThread gb threads) 0) ∧
    tasksRemaining (sourceTasks gb threads) g =
      3 * ((b + perThread gb threads - 1) / perThread gb threads) ∧
    (∀ t ∈ sourceTasks gb threads, t.group_idx = g →
      t.max_idx = b ∧ t.begin_idx < b ∧
        t.end_idx = min (t.begin_idx + perThread gb threads) b ∧
        ∃ k, t.begin_idx = k * perThread gb threads) ∧
    (∀ st ∈ [WindowGroupStage.SINK, WindowGroupStage.FINALIZE,
        WindowGroupStage.GETDATA],
      ∀ j, j < b → ∃ t ∈ sourceTasks gb threads,
        t.group_idx = g ∧ t.stage = st ∧ t.begin_idx ≤ j ∧ j < t.end_idx) := by
  have hne : gb ≠ [] := by
    intro hnil
    rw [hnil] at hg
    simp at hg
  have hbmem : b ∈ gb := List.get?_mem hg
  have hble : b ≤ maxBlocks gb := le_foldr_max gb b hbmem
  have hper : 0 < perThread gb threads := by
    rw [perThread]
    have hthreads_le : threads ≤ maxBlocks gb + threads - 1 := by omega
    exact (Nat.one_le_div_iff ht).mpr hthreads_le
  have hmem_pl : (b, g) ∈ gb.enum.map (fun p => (p.2, p.1)) := by
    apply List.mem_map.mpr
    refine ⟨(g, b), ?_, rfl⟩
    rw [List.mem_enum_iff_getElem?, ← List.get?_eq_getElem?]
    exact hg
  have hmem_s : (b, g) ∈ sortPairsDesc (gb.enum.map fun p => (p.2, p.1)) :=
    (sortPairsDesc_perm _).mem_iff.mpr hmem_pl
  have hnodup : ((sortPairsDesc (gb.enum.map fun p => (p.2, p.1))).map Prod.snd).Nodup := by
    have hpl_nodup : ((gb.enum.map fun p => (p.2, p.1)).map Prod.snd).Nodup := by
      rw [List.map_map]
      have hcomp : (Prod.snd ∘ fun p : ℕ × ℕ => (p.2, p.1)) = Prod.fst := rfl
      rw [hcomp, List.enum_map_fst]
      exact List.nodup_range _
    exact ((sortPairsDesc_perm _).map Prod.snd).symm.nodup hpl_nodup
  have hsrc := sourceTasks_eq_buildTasks gb threads hne
  have hfeq : (sourceTasks gb threads).filter (fun t => t.group_idx == g) =
      stageTasks WindowGroupStage.SINK g b (perThread gb threads) 0 ++
        stageTasks WindowGroupStage.FINALIZE g b (perThread gb threads) 0 ++
        stageTasks WindowGroupStage.GETDATA g b (perThread gb threads) 0 := by
    rw [hsrc]
    exact buildTasks_filter_single (perThread gb threads) g b _ hmem_s hnodup
  refine ⟨hfeq, ?_, ?_, ?_⟩
  · rw [tasksRemaining, List.countP_eq_length_filter, hfeq, List.length_append,
      List.length_append, stageTasks_length _ _ _ _ hper 0,
      stageTasks_length _ _ _ _ hper 0, stageTasks_length _ _ _ _ hper 0]
    simp only [Nat.sub_zero]
    omega
  · intro t htm htg
    have htf : t ∈ (sourceTasks gb threads).filter (fun t => t.group_idx == g) :=
      List.mem_filter.mpr ⟨htm, by simp [htg]⟩
    rw [hfeq] at htf
    have hshape : t.group_idx = g ∧ t.max_idx = b ∧ t.begin_idx < b ∧
        t.end_idx = min (t.begin_idx + perThread gb threads) b ∧
        ∃ k, t.begin_idx = 0 + k * perThread gb threads := by
      rcases List.mem_append.mp htf with h | h
      · rcases List.mem_append.mp h with h' | h'
        · have := stageTasks_shape _ _ _ _ _ _ h'
          exact ⟨this.2.1, this.2.2.1, this.2.2.2.2.1, this.2.2.2.2.2.1, this.2.2.2.2.2.2⟩
        · have := stageTasks_shape _ _ _ _ _ _ h'
          exact ⟨this.2.1, this.2.2.1, this.2.2.2.2.1, this.2.2.2.2.2.1, this.2.2.2.2.2.2⟩
      · have := stageTasks_shape _ _ _ _ _ _ h
        exact ⟨this.2.1, this.2.2.1, this.2.2.2.2.1, this.2.2.2.2.2.1, this.2.2.2.2.2.2⟩
    obtain ⟨_, h2, h3, h4, k, hk⟩ := hshape
    exact ⟨h2, h3, h4, k, by omega⟩
  · intro st hst j hj
    have hst3 : st = WindowGroupStage.SINK ∨ st = WindowGroupStage.FINALIZE ∨
        st = WindowGroupStage.GETDATA := by
      simpa using hst
    have hcover := stageTasks_cover st g b (perThread gb threads) hper 0 j
      (Nat.zero_le j) hj
    obtain ⟨t, htt, h1, h2⟩ := hcover
    have hshape := stageTasks_shape st g b (perThread gb threads) 0 t htt
    have htf : t ∈ (sourceTasks gb threads).filter (fun t => t.group_idx == g) := by
      rw [hfeq]
      rcases hst3 with rfl | rfl | rfl
      · exact List.mem_append.mpr (Or.inl (List.mem_append.mpr (Or.inl htt)))
      · exact List.mem_append.mpr (Or.inl (List.mem_append.mpr (Or.inr htt)))
      · exact List.mem_append.mpr (Or.inr htt)
    exact ⟨t, List.mem_of_mem_filter htf, hshape.2.1, hshape.1, h1, h2⟩

/-- Witness for C3: groups `[2, 1]` on 2 threads (`per_thread = 1`),
group 0 with 2 blocks. -/
theorem C3_task_construction_witness :
    0 < 2 ∧ ([2, 1] : List ℕ).get? 0 = some 2 ∧ 0 < 2 ∧
    ((((sourceTasks [2, 1] 2).filter (fun t => t.group_idx == 0)) =
      stageTasks WindowGroupStage.SINK 0 2 (perThread [2, 1] 2) 0 ++
        stageTasks WindowGroupStage.FINALIZE 0 2 (perThread [2, 1] 2) 0 ++
        stageTasks WindowGroupStage.GETDATA 0 2 (perThread [2, 1] 2) 0) ∧
    tasksRemaining (sourceTasks [2, 1] 2) 0 =
      3 * ((2 + perThread [2, 1] 2 - 1) / perThread [2, 1] 2) ∧
    (∀ t ∈ sourceTasks [2, 1] 2, t.group_idx = 0 →
      t.max_idx = 2 ∧ t.begin_idx < 2 ∧
        t.end_idx = min (t.begin_idx + perThread [2, 1] 2) 2 ∧
        ∃ k, t.begin_idx = k * perThread [2, 1] 2) ∧
    (∀ st ∈ [WindowGroupStage.SINK, WindowGroupStage.FINALIZE,
        WindowGroupStage.GETDATA],
      ∀ j, j < 2 → ∃ t ∈ sourceTasks [2, 1] 2,
        t.group_idx = 0 ∧ t.stage = st ∧ t.begin_idx ≤ j ∧ j < t.end_idx)) :=
  ⟨by norm_num, rfl, by norm_num,
    C3_task_construction [2, 1] 2 0 2 (by norm_num) rfl (by norm_num)⟩

end PhysicalWindow
